import Mathlib

/-!
Verification of the RKSOK phonebook server (`rksok_server.py`, `custom_enums.py`).

Text is modelled as `List Char` (the server decodes every byte stream as UTF-8
before acting on it, so a character-level model is faithful for the checks the
code performs).  Python string operations used by the source are embedded
one-for-one below: `str.split('\r\n')`, `str.count('\r\n\r\n')`,
`str.startswith` / `str.endswith`, `str.strip()` (ASCII whitespace, which covers
every character the protocol vocabulary can produce), `'\r\n'.join`, and the
universal-newline translation plus `readlines()` performed by reading a file
back in text mode.  The file system is an association list from path to
content; the asyncio transport is modelled by the list of write/close events a
connection handler emits.
-/

set_option maxHeartbeats 1000000

/-- Characters stripped by Python `str.strip()` and matched by `\s`
(ASCII range; no protocol token contains non-ASCII whitespace). -/
def isPySpace (c : Char) : Bool :=
  c = ' ' || c = '\t' || c = '\n' || c = '\r' || c = '\x0b' || c = '\x0c'

/-- Shorthand turning a string literal into the character-list model. -/
def txt (s : String) : List Char := s.data

/-- Python `str.strip()`: drop leading and trailing whitespace. -/
def pyStrip (s : List Char) : List Char :=
  ((s.dropWhile isPySpace).reverse.dropWhile isPySpace).reverse

/-- Python `str.startswith(p)` on character lists. -/
def startsWith : List Char → List Char → Bool
  | _, [] => true
  | [], _ :: _ => false
  | c :: l, d :: p => c = d && startsWith l p

/-- Python `str.endswith(s)` on character lists. -/
def endsWith (l s : List Char) : Bool :=
  startsWith l.reverse s.reverse

/-- Helper for `splitOnCRLF`: accumulates the current piece (reversed) and
closes it whenever the separator `\r\n` occurs. -/
def splitCRLFAux : List Char → List Char → List (List Char)
  | [], acc => [acc.reverse]
  | [c], acc => [(c :: acc).reverse]
  | c :: d :: rest, acc =>
    if c = '\r' ∧ d = '\n' then acc.reverse :: splitCRLFAux rest []
    else splitCRLFAux (d :: rest) (c :: acc)

/-- Python `str.split('\r\n')`. -/
def splitOnCRLF (s : List Char) : List (List Char) :=
  splitCRLFAux s []

/-- The first line of a raw request: `raw_request.split('\r\n')[0]`. -/
def firstLine (raw : List Char) : List Char :=
  (splitOnCRLF raw).headD []

/-- Python `str.count('\r\n\r\n')` (non-overlapping, left to right). -/
def countTerm : List Char → Nat
  | '\r' :: '\n' :: '\r' :: '\n' :: rest => countTerm rest + 1
  | _ :: rest => countTerm rest
  | [] => 0

/-- Python `'\r\n'.join(lines)`. -/
def joinCRLF : List (List Char) → List Char
  | [] => []
  | [p] => p
  | p :: q :: ps => p ++ '\r' :: '\n' :: joinCRLF (q :: ps)

/-- Same with a bare `'\n'` separator (the shape file content takes after the
universal-newline translation of text-mode reading). -/
def joinLF : List (List Char) → List Char
  | [] => []
  | [p] => p
  | p :: q :: ps => p ++ '\n' :: joinLF (q :: ps)

/-- Universal-newline translation applied by Python text-mode reading
(`open(..., mode='r')`): `\r\n` and lone `\r` both become `\n`. -/
def univNL : List Char → List Char
  | [] => []
  | [c] => if c = '\r' then ['\n'] else [c]
  | c :: d :: rest =>
    if c = '\r' ∧ d = '\n' then '\n' :: univNL rest
    else if c = '\r' then '\n' :: univNL (d :: rest)
    else c :: univNL (d :: rest)

/-- Helper for `readlinesPy`: splits after every `'\n'`, keeping the newline
at the end of each line, exactly like Python `file.readlines()`. -/
def readlinesAux : List Char → List Char → List (List Char)
  | [], acc => if acc.isEmpty then [] else [acc.reverse]
  | c :: rest, acc =>
    if c = '\n' then (acc.reverse ++ ['\n']) :: readlinesAux rest []
    else readlinesAux rest (c :: acc)

/-- Python `file.readlines()` on already newline-translated content. -/
def readlinesPy (s : List Char) : List (List Char) :=
  readlinesAux s []

/-! ### Protocol vocabulary (`custom_enums.py`) -/

/-- Verbs of `RequestVerbs` in `custom_enums.py`. -/
inductive RequestVerbs
  | GET
  | DELETE
  | WRITE
deriving DecidableEq, Repr

/-- The literal token of each request verb. -/
def RequestVerbs.value : RequestVerbs → List Char
  | .GET => txt "ОТДОВАЙ"
  | .DELETE => txt "УДОЛИ"
  | .WRITE => txt "ЗОПИШИ"

/-- Iteration order of `for request_verb in RequestVerbs` (definition order). -/
def requestVerbsOrder : List RequestVerbs :=
  [RequestVerbs.GET, RequestVerbs.DELETE, RequestVerbs.WRITE]

/-- Members of `ValidationWords` in `custom_enums.py`. -/
inductive ValidationWords
  | IS_ALLOWED
  | ALLOWED
  | FORBIDDEN
deriving DecidableEq, Repr

/-- The literal token of each validation word. -/
def ValidationWords.value : ValidationWords → List Char
  | .IS_ALLOWED => txt "АМОЖНА?"
  | .ALLOWED => txt "МОЖНА"
  | .FORBIDDEN => txt "НИЛЬЗЯ"

/-- Iteration order of `for validation_verb in ValidationWords`. -/
def validationWordsOrder : List ValidationWords :=
  [ValidationWords.IS_ALLOWED, ValidationWords.ALLOWED, ValidationWords.FORBIDDEN]

/-- Response `НИПОНЯЛ РКСОК/1.0\r\n\r\n` built by `_response_if_exception`. -/
def incorrectResponse : List Char := txt "НИПОНЯЛ РКСОК/1.0\r\n\r\n"

/-- Response `НОРМАЛДЫКС РКСОК/1.0\r\n\r\n`. -/
def okResponse : List Char := txt "НОРМАЛДЫКС РКСОК/1.0\r\n\r\n"

/-- Response `НИНАШОЛ РКСОК/1.0\r\n\r\n`. -/
def notFoundResponse : List Char := txt "НИНАШОЛ РКСОК/1.0\r\n\r\n"

/-! ### Frame reading (`RKSOKServer._receiving_data`) -/

/-- The loop's break condition, evaluated on the chunk just read:
`chunk == b'' or chunk.decode().endswith('\r\n\r\n')`. -/
def chunkBreaks (c : List Char) : Bool :=
  c.isEmpty || endsWith c (txt "\r\n\r\n")

/-- `_receiving_data`, driven by the successive chunks the stream reader
yields.  An empty chunk models the peer closing the stream.  Exhausting the
chunk list without hitting the break condition models the reader blocking on
`reader.read`, which the callers' `asyncio.wait_for(..., timeout=5)` turns
into a timeout: `none`, no partial data. -/
def receivingData : List (List Char) → Option (List Char)
  | [] => none
  | c :: rest =>
    if chunkBreaks c then some c
    else (receivingData rest).map (fun d => c ++ d)

/-! ### Request grammar (`_check_phones_in_request`, `_check_request_body`,
`_is_valid_request`) -/

/-- The `\s`-viable spans of the regex `\s+(([^\s]+\s+)+)(?=РКСОК/1\.0)` at
span `[i, j)` of `s`: the span starts and ends with whitespace, contains at
least one non-whitespace character (then it necessarily decomposes as
`\s+([^\s]+\s+)+`), and the text continuing at `j` begins with the lookahead
literal `РКСОК/1.0`. -/
def spanViable (s : List Char) (i j : Nat) : Bool :=
  decide (i < j) && decide (j ≤ s.length) &&
    isPySpace (s.getD i 'x') && isPySpace (s.getD (j - 1) 'x') &&
    ((s.drop i).take (j - i)).any (fun c => !isPySpace c) &&
    startsWith (s.drop j) (txt "РКСОК/1.0")

/-- `re.search(r'\s+(([^\s]+\s+)+)(?=РКСОК/1\.0)', s).group()`:
the match starts at the leftmost viable position; among the ends reachable
from it, backtracking tries longer matches first, so the end is the largest
viable one.  Returns the whole matched text (group 0), `none` when the
pattern does not occur. -/
def searchGroup (s : List Char) : Option (List Char) :=
  match (List.range (s.length + 1)).find?
      (fun i => (List.range (s.length + 1)).any (fun j => spanViable s i j)) with
  | none => none
  | some i =>
    match ((List.range (s.length + 1)).reverse).find? (fun j => spanViable s i j) with
    | none => none
    | some j => some ((s.drop i).take (j - i))

/-- `name.group()[1:-1]`: the matched run with its first and last characters
removed. -/
def nameField (g : List Char) : List Char :=
  (g.drop 1).dropLast

/-- `_check_phones_in_request(request_payload)`:
`request_payload == [_.strip() for _ in request_payload if _.strip()]`. -/
def checkPhonesInRequest (requestPayload : List (List Char)) : Bool :=
  decide (requestPayload =
    (requestPayload.filter (fun x => !(pyStrip x).isEmpty)).map pyStrip)

/-- Outcome of `_check_request_body`: the function returns `True` (carrying
the untrimmed name field and the phone lines it stored on `self`), returns
`False`, or dies on `assert name is not None` when the regex finds no match
(the `except` clause only catches `AttributeError`, so `AssertionError`
escapes). -/
inductive BodyResult
  | ok (name : List Char) (phones : List (List Char))
  | bad
  | assertionFailed
deriving DecidableEq, Repr

/-- `request_payload = [_ for _ in raw_request.split('\r\n') if _]`. -/
def requestPayload (raw : List Char) : List (List Char) :=
  (splitOnCRLF raw).filter (fun x => !x.isEmpty)

/-- `_check_request_body(raw_request)`.  The caller guarantees the text
starts with a verb and a space, so the payload is never empty and its head is
the first line of the text (Python would raise `IndexError` on an empty
payload; that situation is unreachable from `_is_valid_request`). -/
def checkRequestBody (raw : List Char) : BodyResult :=
  if !(endsWith ((requestPayload raw).headD []) (txt " РКСОК/1.0")) ||
      (requestPayload raw).any (fun l => l.contains '\r' || l.contains '\n') then
    BodyResult.bad
  else
    match searchGroup ((requestPayload raw).headD []) with
    | none => BodyResult.assertionFailed
    | some g =>
      if (nameField g).length ≤ 30 ∧
          checkPhonesInRequest ((requestPayload raw).tail) = true then
        BodyResult.ok (nameField g) ((requestPayload raw).tail)
      else BodyResult.bad

/-- A structured request as the server keeps it on `self` after a successful
`_is_valid_request`: the matched verb, the stripped name, the phone lines. -/
structure Request where
  verb : RequestVerbs
  name : List Char
  phones : List (List Char)
deriving DecidableEq, Repr

/-- Outcome of `_is_valid_request`: success, `CanNotParseRequestError`
(caught by `handle_echo`), or an escaping `AssertionError`. -/
inductive ParseOutcome
  | ok (r : Request)
  | err
  | crash
deriving DecidableEq, Repr

/-- `_is_valid_request(raw_request)`: find the first verb the text starts
with (else `CanNotParseRequestError`), check the ending/terminator-count
gate, run `_check_request_body`, and strip the name on success. -/
def isValidRequest (raw : List Char) : ParseOutcome :=
  match requestVerbsOrder.find? (fun v => startsWith raw (v.value ++ [' '])) with
  | none => ParseOutcome.err
  | some v =>
    if (endsWith raw (txt " РКСОК/1.0\r\n\r\n") || endsWith raw (txt "\r\n\r\n"))
        && !(endsWith raw (txt " \r\n\r\n")) && decide (countTerm raw = 1) then
      match checkRequestBody raw with
      | BodyResult.ok nm phones => ParseOutcome.ok ⟨v, pyStrip nm, phones⟩
      | BodyResult.bad => ParseOutcome.err
      | BodyResult.assertionFailed => ParseOutcome.crash
    else ParseOutcome.err

/-! ### Record store (`_write_phones`, `_read_phones`, `_delete_file`) -/

/-- The file system: an association list from path to file content.  A write
shadows earlier entries; deletion removes every entry at the path. -/
abbrev FS := List (List Char × List Char)

/-- Content of the file at `p`, if it exists. -/
def fsLookup : FS → List Char → Option (List Char)
  | [], _ => none
  | (k, v) :: rest, p => if k = p then some v else fsLookup rest p

/-- Remove the file at `p`. -/
def fsErase (fs : FS) (p : List Char) : FS :=
  fs.filter (fun kv => !decide (kv.1 = p))

/-- `f'{self.path_to_phonebook}/{self.name}'`. -/
def phonebookPath (root name : List Char) : List Char :=
  root ++ '/' :: name

/-- Observable actions of one connection: a response written to the client
transport, the transport being closed, and record-store file operations. -/
inductive Event
  | writeClient (resp : List Char)
  | closeTransport
  | fsWrite (path content : List Char)
  | fsRead (path : List Char)
  | fsDelete (path : List Char)
deriving DecidableEq, Repr

/-- `_write_phones`: write `'\r\n'.join(self.phones)` to the record file
(creating the phonebook directory as needed — directories are not part of the
model) and answer `НОРМАЛДЫКС`. -/
def writePhones (root name : List Char) (phones : List (List Char)) (fs : FS) :
    List Char × FS × List Event :=
  (okResponse, (phonebookPath root name, joinCRLF phones) :: fs,
    [Event.fsWrite (phonebookPath root name) (joinCRLF phones)])

/-- The client-visible payload `_read_phones` rebuilds from file content:
text-mode reading translates newlines, `readlines()` splits, each line is
stripped, and the lines are joined with `\r\n`. -/
def readPhonesData (content : List Char) : List Char :=
  joinCRLF ((readlinesPy (univNL content)).map pyStrip)

/-- `_read_phones`: `НИНАШОЛ` when the file is absent, else `НОРМАЛДЫКС`
followed by the re-joined stripped lines and the terminator. -/
def readPhones (root name : List Char) (fs : FS) : List Char × FS × List Event :=
  match fsLookup fs (phonebookPath root name) with
  | none => (notFoundResponse, fs, [])
  | some content =>
    (txt "НОРМАЛДЫКС РКСОК/1.0\r\n" ++ readPhonesData content ++ txt "\r\n\r\n",
      fs, [Event.fsRead (phonebookPath root name)])

/-- `_delete_file`: `НИНАШОЛ` when the file is absent, else remove it and
answer `НОРМАЛДЫКС`. -/
def deleteFile (root name : List Char) (fs : FS) : List Char × FS × List Event :=
  match fsLookup fs (phonebookPath root name) with
  | none => (notFoundResponse, fs, [])
  | some _ =>
    (okResponse, fsErase fs (phonebookPath root name),
      [Event.fsDelete (phonebookPath root name)])

/-- `self.crud_dict` dispatch. -/
def crudDispatch (root : List Char) (r : Request) (fs : FS) :
    List Char × FS × List Event :=
  match r.verb with
  | RequestVerbs.WRITE => writePhones root r.name r.phones fs
  | RequestVerbs.GET => readPhones root r.name fs
  | RequestVerbs.DELETE => deleteFile root r.name fs

/-! ### Connection orchestration (`handle_echo`) -/

/-- `handle_echo`.  `recv` is the outcome of the framed read of the client
request (`none`: the 5-second `asyncio.wait_for` expired).  `authority` is
the outcome of `_tcp_echo_client` (`none`: `CannotFetchDataFromValidationServer`
— connection refused or authority timeout).  The four caught exception kinds
all funnel into `_response_if_exception`; an `AssertionError` from
`_is_valid_request` is not caught, so that path emits no event at all and
never closes the transport. -/
def handleEcho (root : List Char) :
    Option (List Char) → Option (List Char) → FS → List Event × FS
  | none, _, fs => ([Event.writeClient incorrectResponse, Event.closeTransport], fs)
  | some msg, authority, fs =>
    match isValidRequest msg with
    | ParseOutcome.err =>
      ([Event.writeClient incorrectResponse, Event.closeTransport], fs)
    | ParseOutcome.crash => ([], fs)
    | ParseOutcome.ok r =>
      match authority with
      | none => ([Event.writeClient incorrectResponse, Event.closeTransport], fs)
      | some reply =>
        if validationWordsOrder.any (fun w => startsWith reply (w.value ++ [' '])) then
          if startsWith reply (txt "МОЖНА ") then
            let out := crudDispatch root r fs
            (out.2.2 ++ [Event.writeClient out.1, Event.closeTransport], out.2.1)
          else
            ([Event.writeClient reply, Event.closeTransport], fs)
        else
          ([Event.writeClient incorrectResponse, Event.closeTransport], fs)

/-! ### Path normalisation (for the record-store escape property) -/

/-- Helper for `splitOnSlash`. -/
def splitSlashAux : List Char → List Char → List (List Char)
  | [], acc => [acc.reverse]
  | c :: rest, acc =>
    if c = '/' then acc.reverse :: splitSlashAux rest []
    else splitSlashAux rest (c :: acc)

/-- Split a POSIX path on `'/'`. -/
def splitOnSlash (s : List Char) : List (List Char) :=
  splitSlashAux s []

/-- Resolve `.`, `..` and empty segments the way the kernel resolves an
absolute POSIX path. -/
def resolveSegs (segs : List (List Char)) : List (List Char) :=
  segs.foldl
    (fun st seg =>
      if seg = txt ".." then st.dropLast
      else if seg = txt "." ∨ seg = [] then st
      else st ++ [seg])
    []

/-- Normalised segment list of a POSIX path. -/
def normPath (s : List Char) : List (List Char) :=
  resolveSegs (splitOnSlash s)

/-! ### Basic lemmas about the embedded string operations -/

theorem startsWith_append (p t : List Char) : startsWith (p ++ t) p = true := by
  induction p with
  | nil => cases t <;> rfl
  | cons c p ih => simp [startsWith, ih]

theorem startsWith_exists {l p : List Char} (h : startsWith l p = true) :
    ∃ t, l = p ++ t := by
  induction p generalizing l with
  | nil => exact ⟨l, rfl⟩
  | cons d p ih =>
    cases l with
    | nil => simp [startsWith] at h
    | cons c l =>
      simp only [startsWith, Bool.and_eq_true, decide_eq_true_eq] at h
      obtain ⟨t, ht⟩ := ih h.2
      exact ⟨t, by simp [h.1, ht]⟩

theorem startsWith_iff (l p : List Char) :
    startsWith l p = true ↔ ∃ t, l = p ++ t := by
  constructor
  · exact startsWith_exists
  · rintro ⟨t, rfl⟩; exact startsWith_append p t

theorem startsWith_head {l p : List Char} {c : Char}
    (h : startsWith l (c :: p) = true) : ∃ l', l = c :: l' := by
  obtain ⟨t, rfl⟩ := startsWith_exists h
  exact ⟨p ++ t, rfl⟩

theorem startsWith_drop {l p q : List Char}
    (h : startsWith l (p ++ q) = true) : startsWith l p = true := by
  obtain ⟨t, rfl⟩ := startsWith_exists h
  rw [List.append_assoc]
  exact startsWith_append p (q ++ t)

theorem endsWith_tail {l s : List Char} {c : Char}
    (h : endsWith l (c :: s) = true) : endsWith l s = true := by
  unfold endsWith at h ⊢
  rw [List.reverse_cons] at h
  exact startsWith_drop h

theorem length_dropWhile_le (p : Char → Bool) (l : List Char) :
    (l.dropWhile p).length ≤ l.length := by
  induction l with
  | nil => simp [List.dropWhile]
  | cons c cs ih =>
    by_cases h : p c
    · simp only [List.dropWhile, h, List.length_cons]
      exact Nat.le_trans ih (Nat.le_succ _)
    · simp [List.dropWhile, h]

theorem length_pyStrip_le (s : List Char) : (pyStrip s).length ≤ s.length := by
  unfold pyStrip
  calc ((s.dropWhile isPySpace).reverse.dropWhile isPySpace).reverse.length
      = ((s.dropWhile isPySpace).reverse.dropWhile isPySpace).length := by
        rw [List.length_reverse]
    _ ≤ (s.dropWhile isPySpace).reverse.length := length_dropWhile_le _ _
    _ = (s.dropWhile isPySpace).length := by rw [List.length_reverse]
    _ ≤ s.length := length_dropWhile_le _ _

theorem splitCRLFAux_cons_ne (c : Char) (rest acc : List Char) (h : c ≠ '\r') :
    splitCRLFAux (c :: rest) acc = splitCRLFAux rest (c :: acc) := by
  cases rest with
  | nil => rfl
  | cons d rest => simp [splitCRLFAux, h]

theorem splitCRLFAux_crlf (rest acc : List Char) :
    splitCRLFAux ('\r' :: '\n' :: rest) acc = acc.reverse :: splitCRLFAux rest [] := by
  simp [splitCRLFAux]

theorem splitCRLFAux_headD_ne (s acc : List Char) (h : acc ≠ []) :
    (splitCRLFAux s acc).headD [] ≠ [] := by
  induction s, acc using splitCRLFAux.induct with
  | case1 acc => simpa [splitCRLFAux] using h
  | case2 c acc => simp [splitCRLFAux]
  | case3 c d rest acc hc ih =>
    rw [splitCRLFAux, if_pos hc]
    simpa using h
  | case4 c d rest acc hc ih =>
    rw [splitCRLFAux]
    simp only [if_neg hc]
    exact ih (by simp)

theorem filter_headD_eq (l : List (List Char)) (h : l.headD [] ≠ []) :
    (l.filter (fun x => !x.isEmpty)).headD [] = l.headD [] := by
  cases l with
  | nil => simp at h
  | cons x xs =>
    have hx : x.isEmpty = false := by
      simp only [List.headD_cons] at h
      simpa [List.isEmpty_iff] using h
    simp [List.filter_cons, hx]

theorem firstLine_cons_ne_nil (c : Char) (rest : List Char) (h : c ≠ '\r') :
    firstLine (c :: rest) ≠ [] := by
  unfold firstLine splitOnCRLF
  rw [splitCRLFAux_cons_ne c rest [] h]
  exact splitCRLFAux_headD_ne rest [c] (by simp)

theorem firstLine_ne_nil_of_verb {raw : List Char} {v : RequestVerbs}
    (h : startsWith raw (v.value ++ [' ']) = true) : firstLine raw ≠ [] := by
  obtain ⟨t, rfl⟩ := startsWith_exists h
  cases v with
  | GET =>
    have he : (RequestVerbs.value RequestVerbs.GET ++ [' ']) ++ t =
        'О' :: ((txt "ТДОВАЙ" ++ [' ']) ++ t) := rfl
    rw [he]
    exact firstLine_cons_ne_nil 'О' _ (by decide)
  | DELETE =>
    have he : (RequestVerbs.value RequestVerbs.DELETE ++ [' ']) ++ t =
        'У' :: ((txt "ДОЛИ" ++ [' ']) ++ t) := rfl
    rw [he]
    exact firstLine_cons_ne_nil 'У' _ (by decide)
  | WRITE =>
    have he : (RequestVerbs.value RequestVerbs.WRITE ++ [' ']) ++ t =
        'З' :: ((txt "ОПИШИ" ++ [' ']) ++ t) := rfl
    rw [he]
    exact firstLine_cons_ne_nil 'З' _ (by decide)

theorem payloadFirst_eq (raw : List Char) (h : firstLine raw ≠ []) :
    (requestPayload raw).headD [] = firstLine raw :=
  filter_headD_eq (splitOnCRLF raw) h

theorem checkRequestBody_bad_of_endsWith {raw : List Char}
    (h : endsWith ((requestPayload raw).headD []) (txt " РКСОК/1.0") = false) :
    checkRequestBody raw = BodyResult.bad := by
  unfold checkRequestBody
  rw [h]
  rfl

theorem checkRequestBody_bad_of_long_name {raw g : List Char}
    (hg : searchGroup ((requestPayload raw).headD []) = some g)
    (hlen : 30 < (nameField g).length) :
    checkRequestBody raw = BodyResult.bad := by
  unfold checkRequestBody
  split
  · rfl
  · split
    · rename_i heq
      rw [hg] at heq
      exact Option.noConfusion heq
    · rename_i g' heq
      rw [hg] at heq
      injection heq with hgg
      subst hgg
      rw [if_neg]
      rintro ⟨h1, _⟩
      omega

theorem checkRequestBody_ok_inv {raw nm : List Char} {ph : List (List Char)}
    (h : checkRequestBody raw = BodyResult.ok nm ph) :
    ∃ g, searchGroup ((requestPayload raw).headD []) = some g ∧
      nm = nameField g ∧ (nameField g).length ≤ 30 ∧
      ph = (requestPayload raw).tail ∧
      checkPhonesInRequest ((requestPayload raw).tail) = true := by
  unfold checkRequestBody at h
  split at h
  · exact absurd h (by simp)
  · split at h
    · exact absurd h (by simp)
    · rename_i g heq
      split at h
      · rename_i hcond
        injection h with h1 h2
        exact ⟨g, heq, h1.symm, hcond.1, h2.symm, hcond.2⟩
      · exact absurd h (by simp)

theorem isValidRequest_err_of_find_none {raw : List Char}
    (h : requestVerbsOrder.find? (fun v => startsWith raw (v.value ++ [' '])) = none) :
    isValidRequest raw = ParseOutcome.err := by
  unfold isValidRequest
  rw [h]

theorem isValidRequest_err_of_body_bad {raw : List Char}
    (h : checkRequestBody raw = BodyResult.bad) :
    isValidRequest raw = ParseOutcome.err := by
  unfold isValidRequest
  split
  · rfl
  · split
    · rw [h]
    · rfl

theorem isValidRequest_err_of_countTerm {raw : List Char} (h : countTerm raw ≠ 1) :
    isValidRequest raw = ParseOutcome.err := by
  unfold isValidRequest
  split
  · rfl
  · split
    · rename_i hgate
      simp [h] at hgate
    · rfl

theorem isValidRequest_ok_inv {raw : List Char} {r : Request}
    (h : isValidRequest raw = ParseOutcome.ok r) :
    ∃ v nm ph, requestVerbsOrder.find? (fun w => startsWith raw (w.value ++ [' '])) = some v ∧
      checkRequestBody raw = BodyResult.ok nm ph ∧
      r = ⟨v, pyStrip nm, ph⟩ := by
  unfold isValidRequest at h
  split at h
  · exact absurd h (by simp)
  · rename_i v hf
    split at h
    · split at h
      · rename_i nm ph hb
        injection h with h1
        exact ⟨v, nm, ph, hf, hb, h1.symm⟩
      · exact absurd h (by simp)
      · exact absurd h (by simp)
    · exact absurd h (by simp)

theorem handleEcho_of_err {root msg : List Char} {auth : Option (List Char)} {fs : FS}
    (h : isValidRequest msg = ParseOutcome.err) :
    handleEcho root (some msg) auth fs =
      ([Event.writeClient incorrectResponse, Event.closeTransport], fs) := by
  rw [handleEcho, h]

/-! ### Claim theorems: grammar rejection and name handling -/

/-- C6: a request whose first line does not end with the protocol version
token `РКСОК/1.0`, or whose name trims to more than 30 characters, or whose
terminator `\r\n\r\n` occurs more than once, fails parsing with
`CanNotParseRequestError`; the client gets the incorrect-request response and
the record store is untouched (no file event is emitted, the file system is
returned unchanged). -/
theorem malformed_request_rejected (raw root : List Char) (auth : Option (List Char)) (fs : FS)
    (h : endsWith (firstLine raw) (txt "РКСОК/1.0") = false
       ∨ (∃ g, searchGroup (firstLine raw) = some g ∧ 30 < (pyStrip (nameField g)).length)
       ∨ 2 ≤ countTerm raw) :
    isValidRequest raw = ParseOutcome.err ∧
    handleEcho root (some raw) auth fs =
      ([Event.writeClient incorrectResponse, Event.closeTransport], fs) := by
  have herr : isValidRequest raw = ParseOutcome.err := by
    rcases h with h | ⟨g, hg, hlen⟩ | hcount
    · cases hf : requestVerbsOrder.find? (fun v => startsWith raw (v.value ++ [' '])) with
      | none => exact isValidRequest_err_of_find_none hf
      | some v =>
        have hpred := List.find?_some hf
        have hfl : firstLine raw ≠ [] := firstLine_ne_nil_of_verb hpred
        have hfirst : (requestPayload raw).headD [] = firstLine raw := payloadFirst_eq raw hfl
        have hsp : endsWith (firstLine raw) (txt " РКСОК/1.0") = false := by
          cases hcase : endsWith (firstLine raw) (txt " РКСОК/1.0") with
          | false => rfl
          | true =>
            have he : txt " РКСОК/1.0" = ' ' :: txt "РКСОК/1.0" := rfl
            rw [he] at hcase
            rw [endsWith_tail hcase] at h
            exact Bool.noConfusion h
        refine isValidRequest_err_of_body_bad (checkRequestBody_bad_of_endsWith ?_)
        rw [hfirst]
        exact hsp
    · cases hf : requestVerbsOrder.find? (fun v => startsWith raw (v.value ++ [' '])) with
      | none => exact isValidRequest_err_of_find_none hf
      | some v =>
        have hpred := List.find?_some hf
        have hfl : firstLine raw ≠ [] := firstLine_ne_nil_of_verb hpred
        have hfirst : (requestPayload raw).headD [] = firstLine raw := payloadFirst_eq raw hfl
        have hg' : searchGroup ((requestPayload raw).headD []) = some g := by
          rw [hfirst]; exact hg
        have hfield : 30 < (nameField g).length :=
          Nat.lt_of_lt_of_le hlen (length_pyStrip_le _)
        exact isValidRequest_err_of_body_bad (checkRequestBody_bad_of_long_name hg' hfield)
    · exact isValidRequest_err_of_countTerm (by omega)
  exact ⟨herr, handleEcho_of_err herr⟩

/-- Witness for the grammar-rejection theorem: a first line ending in the
wrong protocol version token. -/
theorem malformed_request_rejected_witness :
    isValidRequest (txt "ОТДОВАЙ Ivan РКСОК/1.1\r\n\r\n") = ParseOutcome.err ∧
    handleEcho (txt "R") (some (txt "ОТДОВАЙ Ivan РКСОК/1.1\r\n\r\n")) none [] =
      ([Event.writeClient incorrectResponse, Event.closeTransport], []) :=
  malformed_request_rejected _ _ _ _ (Or.inl (by decide))

/-- C7 (amended): whenever a request parses successfully, the name that was
length-checked is the matched run with exactly one leading and one trailing
character removed — still carrying any extra separating whitespace — and the
Request's name is that field trimmed.  So the 30-character bound is applied
before trimming, not after. -/
theorem accepted_name_untrimmed_bound (raw : List Char) (r : Request)
    (h : isValidRequest raw = ParseOutcome.ok r) :
    ∃ g, searchGroup (firstLine raw) = some g ∧ (nameField g).length ≤ 30 ∧
      r.name = pyStrip (nameField g) := by
  obtain ⟨v, nm, ph, hf, hb, hr⟩ := isValidRequest_ok_inv h
  have hpred := List.find?_some hf
  have hfl := firstLine_ne_nil_of_verb hpred
  have hfirst := payloadFirst_eq raw hfl
  obtain ⟨g, hg, hnm, hlen, _, _⟩ := checkRequestBody_ok_inv hb
  refine ⟨g, by rw [← hfirst]; exact hg, hlen, ?_⟩
  rw [hr, hnm]

/-- Witness for the untrimmed-bound theorem at a concrete accepted request. -/
theorem accepted_name_untrimmed_bound_witness :
    ∃ g, searchGroup (firstLine (txt "ЗОПИШИ Ivan РКСОК/1.0\r\n\r\n")) = some g ∧
      (nameField g).length ≤ 30 ∧
      (Request.mk RequestVerbs.WRITE (txt "Ivan") []).name = pyStrip (nameField g) :=
  accepted_name_untrimmed_bound (txt "ЗОПИШИ Ivan РКСОК/1.0\r\n\r\n")
    ⟨RequestVerbs.WRITE, txt "Ivan", []⟩ (by decide)

/-- C7 counterexample: a name of exactly 30 characters preceded by two
spaces trims to within the bound, yet the request is rejected, because the
length check runs on the still-space-carrying field of 31 characters. -/
theorem name_length_checked_untrimmed_cex :
    searchGroup (firstLine (txt "ЗОПИШИ  aaaaaaaaaaaaaaaaaaaaaaaaaaaaaa РКСОК/1.0\r\n\r\n")) =
      some (txt "  aaaaaaaaaaaaaaaaaaaaaaaaaaaaaa ") ∧
    pyStrip (nameField (txt "  aaaaaaaaaaaaaaaaaaaaaaaaaaaaaa ")) =
      txt "aaaaaaaaaaaaaaaaaaaaaaaaaaaaaa" ∧
    (pyStrip (nameField (txt "  aaaaaaaaaaaaaaaaaaaaaaaaaaaaaa "))).length = 30 ∧
    isValidRequest (txt "ЗОПИШИ  aaaaaaaaaaaaaaaaaaaaaaaaaaaaaa РКСОК/1.0\r\n\r\n") =
      ParseOutcome.err :=
  ⟨by decide, by decide, by decide, by decide⟩

/-! ### Claim theorems: connection orchestration -/

/-- C2: the code contradicts the always-one-response guarantee.  On a request
whose name run is pure whitespace the regex finds no match, and
`assert name is not None` raises `AssertionError` — which the `except` clause
in `handle_echo` does not catch (it is not an `AttributeError`, contrary to
the comment in `_check_request_body`).  The handler dies with no response
written and the transport never closed: the event trace is empty. -/
theorem handle_echo_whitespace_name_no_response :
    isValidRequest (txt "ЗОПИШИ  РКСОК/1.0\r\n\r\n") = ParseOutcome.crash ∧
    handleEcho (txt "R") (some (txt "ЗОПИШИ  РКСОК/1.0\r\n\r\n"))
      (some (txt "МОЖНА РКСОК/1.0\r\n\r\n")) [] = ([], []) :=
  ⟨by decide, by decide⟩

/-- C4: an authority reply starting with the query token `АМОЖНА? ` passes
the vocabulary loop (that loop iterates over all three `ValidationWords`
members, including `IS_ALLOWED`), is not the allowed token, and is therefore
relayed verbatim to the client instead of producing the incorrect-request
response the vocabulary check was meant to give. -/
theorem query_token_reply_relayed_not_rejected :
    handleEcho (txt "R") (some (txt "ОТДОВАЙ Ivan РКСОК/1.0\r\n\r\n"))
      (some (txt "АМОЖНА? РКСОК/1.0\r\n\r\n")) [] =
      ([Event.writeClient (txt "АМОЖНА? РКСОК/1.0\r\n\r\n"), Event.closeTransport], []) := by
  decide

/-- C3: whenever the request parses and the authority's reply starts with
the forbidden token `НИЛЬЗЯ `, the exact reply text is written to the client,
the transport is closed, and the record store is untouched: no file event is
emitted and the file system is returned unchanged. -/
theorem forbidden_verdict_relayed_verbatim (root msg reply : List Char) (r : Request) (fs : FS)
    (hok : isValidRequest msg = ParseOutcome.ok r)
    (hforb : startsWith reply (txt "НИЛЬЗЯ ") = true) :
    handleEcho root (some msg) (some reply) fs =
      ([Event.writeClient reply, Event.closeTransport], fs) := by
  have hany : validationWordsOrder.any (fun w => startsWith reply (w.value ++ [' '])) = true := by
    have h3 : startsWith reply (ValidationWords.FORBIDDEN.value ++ [' ']) = true := by
      have he : ValidationWords.FORBIDDEN.value ++ [' '] = txt "НИЛЬЗЯ " := by decide
      rw [he]
      exact hforb
    simp [validationWordsOrder, h3]
  have hma : startsWith reply (txt "МОЖНА ") = false := by
    cases hc : startsWith reply (txt "МОЖНА ") with
    | false => rfl
    | true =>
      have he1 : txt "МОЖНА " = 'М' :: txt "ОЖНА " := rfl
      have he2 : txt "НИЛЬЗЯ " = 'Н' :: txt "ИЛЬЗЯ " := rfl
      rw [he1] at hc
      rw [he2] at hforb
      obtain ⟨l1, hl1⟩ := startsWith_head hc
      obtain ⟨l2, hl2⟩ := startsWith_head hforb
      rw [hl1] at hl2
      injection hl2 with hc12 _
      exact absurd hc12 (by decide)
  rw [handleEcho, hok]
  simp [hany, hma]

/-- Witness for the forbidden-verdict relay at a concrete request and reply. -/
theorem forbidden_verdict_relayed_verbatim_witness :
    handleEcho (txt "R") (some (txt "ОТДОВАЙ Ivan РКСОК/1.0\r\n\r\n"))
      (some (txt "НИЛЬЗЯ РКСОК/1.0\r\n\r\n")) [] =
      ([Event.writeClient (txt "НИЛЬЗЯ РКСОК/1.0\r\n\r\n"), Event.closeTransport], []) :=
  forbidden_verdict_relayed_verbatim (txt "R") (txt "ОТДОВАЙ Ivan РКСОК/1.0\r\n\r\n")
    (txt "НИЛЬЗЯ РКСОК/1.0\r\n\r\n") ⟨RequestVerbs.GET, txt "Ivan", []⟩ []
    (by decide) (by decide)

/-! ### Claim theorems: frame reading -/

/-- C5 counterexample: the terminator arrives split across two chunks — the
accumulated buffer ends with `\r\n\r\n`, the source is still open — yet the
read does not return (the loop tests the chunk, not the buffer), so the
5-second timeout is the only way out. -/
theorem receiving_data_split_terminator_cex :
    receivingData [txt "ЗОПИШИ Ivan РКСОК/1.0\r\n", txt "\r\n"] = none ∧
    endsWith (txt "ЗОПИШИ Ivan РКСОК/1.0\r\n" ++ txt "\r\n") (txt "\r\n\r\n") = true :=
  ⟨by decide, by decide⟩

/-- C5 (amended): `_receiving_data` returns the accumulated bytes exactly
when some yielded chunk is empty (source closed) or itself ends with the
terminator; every earlier chunk must fail that test, and if no chunk ever
passes it the read never returns (`none`): the caller's single 5-second
timeout fires and no partial data is surfaced. -/
theorem receiving_data_chunk_characterization (pre : List (List Char)) (c : List Char)
    (suf : List (List Char)) (h : ∀ x ∈ pre, chunkBreaks x = false) :
    (chunkBreaks c = true → receivingData (pre ++ c :: suf) = some (pre.flatten ++ c)) ∧
    receivingData pre = none := by
  induction pre with
  | nil =>
    refine ⟨fun hc => ?_, rfl⟩
    simp [receivingData, hc]
  | cons x xs ih =>
    have hx : chunkBreaks x = false := h x (by simp)
    have ihh := ih (fun y hy => h y (by simp [hy]))
    constructor
    · intro hc
      simp only [List.cons_append, receivingData, hx, Bool.false_eq_true, if_false,
        List.append_eq]
      rw [ihh.1 hc]
      simp
    · simp only [receivingData, hx, Bool.false_eq_true, if_false]
      rw [ihh.2]
      rfl

/-- Witness for the chunk-break characterization: a terminator wholly inside
the second chunk ends the read; chunks without a break never return. -/
theorem receiving_data_chunk_characterization_witness :
    receivingData ([txt "ab"] ++ txt "cd\r\n\r\n" :: [txt "zz"]) =
      some (List.flatten [txt "ab"] ++ txt "cd\r\n\r\n") ∧
    receivingData [txt "ab"] = none := by
  have h := receiving_data_chunk_characterization [txt "ab"] (txt "cd\r\n\r\n") [txt "zz"]
    (by decide)
  exact ⟨h.1 (by decide), h.2⟩

/-! ### Claim theorems: record store -/

theorem fsLookup_fsErase_self (fs : FS) (p : List Char) :
    fsLookup (fsErase fs p) p = none := by
  induction fs with
  | nil => rfl
  | cons kv fs ih =>
    obtain ⟨k, v⟩ := kv
    by_cases hk : k = p
    · simpa [fsErase, List.filter_cons, hk] using ih
    · simp only [fsErase, List.filter_cons] at ih ⊢
      simp [hk, fsLookup, ih]

/-- C8: `_delete_file` answers `НИНАШОЛ` and leaves the store untouched when
the record is absent; when present it removes the backing file, answers
`НОРМАЛДЫКС`, and a subsequent `_read_phones` for the same name answers
`НИНАШОЛ`. -/
theorem delete_semantics (root name : List Char) (fs : FS) :
    (fsLookup fs (phonebookPath root name) = none →
      deleteFile root name fs = (notFoundResponse, fs, [])) ∧
    (∀ content, fsLookup fs (phonebookPath root name) = some content →
      deleteFile root name fs =
        (okResponse, fsErase fs (phonebookPath root name),
          [Event.fsDelete (phonebookPath root name)]) ∧
      readPhones root name (fsErase fs (phonebookPath root name)) =
        (notFoundResponse, fsErase fs (phonebookPath root name), [])) := by
  refine ⟨fun h => ?_, fun content h => ⟨?_, ?_⟩⟩
  · unfold deleteFile
    rw [h]
  · unfold deleteFile
    rw [h]
  · unfold readPhones
    rw [fsLookup_fsErase_self]

/-- Witness for the delete semantics: a present record and an absent one. -/
theorem delete_semantics_witness :
    deleteFile (txt "R") (txt "Ivan") [(phonebookPath (txt "R") (txt "Ivan"), txt "+7")] =
      (okResponse, [], [Event.fsDelete (phonebookPath (txt "R") (txt "Ivan"))]) ∧
    readPhones (txt "R") (txt "Ivan") [] = (notFoundResponse, [], []) ∧
    deleteFile (txt "R") (txt "Ivan") [] = (notFoundResponse, [], []) := by
  have h := delete_semantics (txt "R") (txt "Ivan")
    [(phonebookPath (txt "R") (txt "Ivan"), txt "+7")]
  have h2 := delete_semantics (txt "R") (txt "Ivan") []
  obtain ⟨hd, hrd⟩ := h.2 (txt "+7") (by decide)
  have he : fsErase [(phonebookPath (txt "R") (txt "Ivan"), txt "+7")]
      (phonebookPath (txt "R") (txt "Ivan")) = [] := by decide
  rw [he] at hd hrd
  exact ⟨hd, hrd, h2.1 (by decide)⟩

/-! ### Claim theorems: empty payload store -/

theorem splitCRLFAux_append_term : ∀ fl acc : List Char, '\r' ∉ fl →
    splitCRLFAux (fl ++ txt "\r\n\r\n") acc = [acc.reverse ++ fl, [], []] := by
  intro fl
  induction fl with
  | nil =>
    intro acc _
    show splitCRLFAux ('\r' :: '\n' :: '\r' :: '\n' :: []) acc = _
    rw [splitCRLFAux_crlf, splitCRLFAux_crlf]
    simp [splitCRLFAux]
  | cons c fl ih =>
    intro acc hr
    have hc : c ≠ '\r' := fun hh => hr (by simp [hh])
    have hr' : '\r' ∉ fl := fun hh => hr (by simp [hh])
    rw [List.cons_append, splitCRLFAux_cons_ne c _ acc hc, ih (c :: acc) hr']
    simp

theorem requestPayload_tail_nil (fl : List Char) (hr : '\r' ∉ fl) :
    (requestPayload (fl ++ txt "\r\n\r\n")).tail = [] := by
  unfold requestPayload splitOnCRLF
  rw [splitCRLFAux_append_term fl [] hr]
  by_cases hb : fl.isEmpty
  · simp [List.filter_cons, hb]
  · simp [List.filter_cons, hb]

/-- C10: a Store request whose text is a single first line followed directly
by the terminator parses with an empty phone list (`_check_phones_in_request`
accepts `[]`), and on authority approval `_write_phones` writes an empty file
and answers `НОРМАЛДЫКС` — nothing rejects the empty payload. -/
theorem empty_payload_store_ok (fl root : List Char) (r : Request) (fs : FS)
    (hr : '\r' ∉ fl)
    (h : isValidRequest (fl ++ txt "\r\n\r\n") = ParseOutcome.ok r)
    (hv : r.verb = RequestVerbs.WRITE) :
    r.phones = [] ∧
    handleEcho root (some (fl ++ txt "\r\n\r\n")) (some (txt "МОЖНА РКСОК/1.0\r\n\r\n")) fs =
      ([Event.fsWrite (phonebookPath root r.name) [],
        Event.writeClient okResponse, Event.closeTransport],
       (phonebookPath root r.name, []) :: fs) := by
  have hph : r.phones = [] := by
    obtain ⟨v, nm, ph, hf, hb, hrr⟩ := isValidRequest_ok_inv h
    obtain ⟨g, _, _, _, hph', _⟩ := checkRequestBody_ok_inv hb
    rw [hrr]
    show ph = []
    rw [hph']
    exact requestPayload_tail_nil fl hr
  have hcrud : crudDispatch root r fs =
      (okResponse, (phonebookPath root r.name, []) :: fs,
        [Event.fsWrite (phonebookPath root r.name) []]) := by
    unfold crudDispatch
    rw [hv]
    unfold writePhones
    rw [hph]
    rfl
  have hany : (validationWordsOrder.any
      (fun w => startsWith (txt "МОЖНА РКСОК/1.0\r\n\r\n") (w.value ++ [' ']))) = true := by
    decide
  have hstart : startsWith (txt "МОЖНА РКСОК/1.0\r\n\r\n") (txt "МОЖНА ") = true := by
    decide
  refine ⟨hph, ?_⟩
  rw [handleEcho, h]
  simp [hany, hstart, hcrud]

/-- Witness for the empty-payload store at a concrete request. -/
theorem empty_payload_store_ok_witness :
    (Request.mk RequestVerbs.WRITE (txt "Ivan") []).phones = [] ∧
    handleEcho (txt "R") (some (txt "ЗОПИШИ Ivan РКСОК/1.0" ++ txt "\r\n\r\n"))
      (some (txt "МОЖНА РКСОК/1.0\r\n\r\n")) [] =
      ([Event.fsWrite (phonebookPath (txt "R") (txt "Ivan")) [],
        Event.writeClient okResponse, Event.closeTransport],
       [(phonebookPath (txt "R") (txt "Ivan"), [])]) :=
  empty_payload_store_ok (txt "ЗОПИШИ Ivan РКСОК/1.0") (txt "R")
    ⟨RequestVerbs.WRITE, txt "Ivan", []⟩ [] (by decide) (by decide) rfl

/-! ### Claim theorems: record paths escape the phonebook root -/

theorem splitSlashAux_structure : ∀ s acc : List Char,
    splitSlashAux s acc = (acc.reverse ++ (splitOnSlash s).headD []) :: (splitOnSlash s).tail := by
  intro s
  induction s with
  | nil => intro acc; simp [splitSlashAux, splitOnSlash]
  | cons c rest ih =>
    intro acc
    by_cases hc : c = '/'
    · subst hc
      simp [splitSlashAux, splitOnSlash]
    · rw [show splitSlashAux (c :: rest) acc = splitSlashAux rest (c :: acc) from by
        simp [splitSlashAux, hc]]
      rw [ih (c :: acc)]
      rw [show splitOnSlash (c :: rest) = splitSlashAux rest [c] from by
        simp [splitOnSlash, splitSlashAux, hc]]
      rw [ih [c]]
      simp

theorem splitOnSlash_ne_nil (s : List Char) : splitOnSlash s ≠ [] := by
  show splitSlashAux s [] ≠ []
  rw [splitSlashAux_structure s []]
  simp

theorem splitOnSlash_append : ∀ a b : List Char,
    splitOnSlash (a ++ '/' :: b) = splitOnSlash a ++ splitOnSlash b := by
  intro a
  induction a with
  | nil =>
    intro b
    show splitSlashAux ('/' :: b) [] = splitSlashAux [] [] ++ splitOnSlash b
    simp [splitSlashAux, splitOnSlash]
  | cons c a ih =>
    intro b
    by_cases hc : c = '/'
    · subst hc
      have l1 : splitOnSlash ('/' :: (a ++ '/' :: b)) = [] :: splitOnSlash (a ++ '/' :: b) := by
        simp [splitOnSlash, splitSlashAux]
      have l2 : splitOnSlash ('/' :: a) = [] :: splitOnSlash a := by
        simp [splitOnSlash, splitSlashAux]
      rw [List.cons_append, l1, ih, l2]
      rfl
    · have l1 : splitOnSlash (c :: (a ++ '/' :: b)) = splitSlashAux (a ++ '/' :: b) [c] := by
        simp [splitOnSlash, splitSlashAux, hc]
      have l2 : splitOnSlash (c :: a) = splitSlashAux a [c] := by
        simp [splitOnSlash, splitSlashAux, hc]
      rw [List.cons_append, l1, splitSlashAux_structure, ih, l2, splitSlashAux_structure a [c]]
      obtain ⟨x, xs, hx⟩ : ∃ x xs, splitOnSlash a = x :: xs := by
        cases hsa : splitOnSlash a with
        | nil => exact absurd hsa (splitOnSlash_ne_nil a)
        | cons x xs => exact ⟨x, xs, rfl⟩
      rw [hx]
      simp

/-- C9: the grammar accepts the name `../zzz` (any run of non-whitespace
characters is a name), the record-store path is built by plain string
concatenation, and for any phonebook root ending in the `rksok_phonebook`
segment the resulting file path normalises to a location outside the root:
an approved Store request writes through the root directory. -/
theorem path_escape_possible (rootStr : List Char) (R' : List (List Char)) (fs : FS)
    (h : normPath rootStr = R' ++ [txt "rksok_phonebook"]) :
    isValidRequest (txt "ЗОПИШИ ../zzz РКСОК/1.0\r\n+7\r\n\r\n") =
      ParseOutcome.ok ⟨RequestVerbs.WRITE, txt "../zzz", [txt "+7"]⟩ ∧
    handleEcho rootStr (some (txt "ЗОПИШИ ../zzz РКСОК/1.0\r\n+7\r\n\r\n"))
      (some (txt "МОЖНА РКСОК/1.0\r\n\r\n")) fs =
      ([Event.fsWrite (phonebookPath rootStr (txt "../zzz")) (txt "+7"),
        Event.writeClient okResponse, Event.closeTransport],
       (phonebookPath rootStr (txt "../zzz"), txt "+7") :: fs) ∧
    ∀ t, normPath (phonebookPath rootStr (txt "../zzz")) ≠ normPath rootStr ++ t := by
  have hok : isValidRequest (txt "ЗОПИШИ ../zzz РКСОК/1.0\r\n+7\r\n\r\n") =
      ParseOutcome.ok ⟨RequestVerbs.WRITE, txt "../zzz", [txt "+7"]⟩ := by decide
  refine ⟨hok, ?_, ?_⟩
  · have hcrud : crudDispatch rootStr ⟨RequestVerbs.WRITE, txt "../zzz", [txt "+7"]⟩ fs =
        (okResponse, (phonebookPath rootStr (txt "../zzz"), txt "+7") :: fs,
          [Event.fsWrite (phonebookPath rootStr (txt "../zzz")) (txt "+7")]) := rfl
    have hany : (validationWordsOrder.any
        (fun w => startsWith (txt "МОЖНА РКСОК/1.0\r\n\r\n") (w.value ++ [' ']))) = true := by
      decide
    have hstart : startsWith (txt "МОЖНА РКСОК/1.0\r\n\r\n") (txt "МОЖНА ") = true := by
      decide
    rw [handleEcho, hok]
    simp [hany, hstart, hcrud]
  · intro t hcontra
    have hsplit : splitOnSlash (phonebookPath rootStr (txt "../zzz")) =
        splitOnSlash rootStr ++ [txt "..", txt "zzz"] := by
      show splitOnSlash (rootStr ++ '/' :: txt "../zzz") = _
      rw [splitOnSlash_append]
      congr 1
    have hnorm : normPath (phonebookPath rootStr (txt "../zzz")) = R' ++ [txt "zzz"] := by
      unfold normPath resolveSegs
      rw [hsplit, List.foldl_append]
      have hr : List.foldl
          (fun st seg =>
            if seg = txt ".." then st.dropLast
            else if seg = txt "." ∨ seg = [] then st
            else st ++ [seg]) [] (splitOnSlash rootStr) = R' ++ [txt "rksok_phonebook"] := h
      rw [hr]
      simp only [List.foldl_cons, List.foldl_nil]
      simp [show txt "zzz" ≠ txt ".." from by decide,
        show txt "zzz" ≠ txt "." from by decide,
        show txt "zzz" ≠ ([] : List Char) from by decide]
    rw [hnorm, h, List.append_assoc] at hcontra
    have hcc := List.append_cancel_left hcontra
    rw [List.singleton_append] at hcc
    injection hcc with h1 _
    exact absurd h1 (by decide)

/-- Witness for the path-escape theorem at a concrete resolved root. -/
theorem path_escape_possible_witness :
    isValidRequest (txt "ЗОПИШИ ../zzz РКСОК/1.0\r\n+7\r\n\r\n") =
      ParseOutcome.ok ⟨RequestVerbs.WRITE, txt "../zzz", [txt "+7"]⟩ ∧
    handleEcho (txt "/home/user/rksok_phonebook")
      (some (txt "ЗОПИШИ ../zzz РКСОК/1.0\r\n+7\r\n\r\n"))
      (some (txt "МОЖНА РКСОК/1.0\r\n\r\n")) [] =
      ([Event.fsWrite (phonebookPath (txt "/home/user/rksok_phonebook") (txt "../zzz")) (txt "+7"),
        Event.writeClient okResponse, Event.closeTransport],
       [(phonebookPath (txt "/home/user/rksok_phonebook") (txt "../zzz"), txt "+7")]) ∧
    normPath (phonebookPath (txt "/home/user/rksok_phonebook") (txt "../zzz")) ≠
      normPath (txt "/home/user/rksok_phonebook") ++ [] := by
  have h := path_escape_possible (txt "/home/user/rksok_phonebook")
    [txt "home", txt "user"] [] (by decide)
  exact ⟨h.1, h.2.1, h.2.2 []⟩

/-! ### Claim theorems: store/retrieve round trip -/

theorem dropWhile_eq_self_of_length (f : Char → Bool) (l : List Char)
    (h : (l.dropWhile f).length = l.length) : l.dropWhile f = l := by
  cases l with
  | nil => rfl
  | cons c cs =>
    by_cases hf : f c
    · exfalso
      have hle := length_dropWhile_le f cs
      simp [List.dropWhile_cons, hf] at h
      omega
    · simp [List.dropWhile_cons, hf]

theorem pyStrip_eq_parts {p : List Char} (h : pyStrip p = p) :
    p.dropWhile isPySpace = p ∧ p.reverse.dropWhile isPySpace = p.reverse := by
  have h1 : p.dropWhile isPySpace = p := by
    apply dropWhile_eq_self_of_length
    have e1 : (pyStrip p).length ≤ (p.dropWhile isPySpace).length := by
      unfold pyStrip
      rw [List.length_reverse]
      calc ((p.dropWhile isPySpace).reverse.dropWhile isPySpace).length
          ≤ (p.dropWhile isPySpace).reverse.length := length_dropWhile_le _ _
        _ = (p.dropWhile isPySpace).length := List.length_reverse _
    have e2 := length_dropWhile_le isPySpace p
    rw [h] at e1
    omega
  refine ⟨h1, ?_⟩
  unfold pyStrip at h
  rw [h1] at h
  have := congrArg List.reverse h
  simpa using this

theorem pyStrip_append_newline {p : List Char} (hne : p ≠ []) (h : pyStrip p = p) :
    pyStrip (p ++ ['\n']) = p := by
  obtain ⟨h1, h2⟩ := pyStrip_eq_parts h
  obtain ⟨c, p', rfl⟩ : ∃ c p', p = c :: p' := by
    cases p with
    | nil => exact absurd rfl hne
    | cons c p' => exact ⟨c, p', rfl⟩
  have hc : isPySpace c = false := by
    by_cases hf : isPySpace c
    · exfalso
      simp [List.dropWhile_cons, hf] at h1
      have := length_dropWhile_le isPySpace p'
      have hlen := congrArg List.length h1
      simp at hlen
      omega
    · simpa using hf
  have e0 : (c :: (p' ++ ['\n'])).dropWhile isPySpace = c :: (p' ++ ['\n']) := by
    simp [List.dropWhile_cons, hc]
  unfold pyStrip
  rw [show (c :: p') ++ ['\n'] = c :: (p' ++ ['\n']) from rfl, e0]
  rw [show (c :: (p' ++ ['\n'])).reverse = '\n' :: (c :: p').reverse from by simp]
  rw [show ('\n' :: (c :: p').reverse).dropWhile isPySpace =
      (c :: p').reverse.dropWhile isPySpace from by
    simp [List.dropWhile_cons, show isPySpace '\n' = true from rfl]]
  rw [h2]
  simp

theorem readlinesAux_cons_ne (c : Char) (rest acc : List Char) (h : c ≠ '\n') :
    readlinesAux (c :: rest) acc = readlinesAux rest (c :: acc) := by
  simp [readlinesAux, h]

theorem readlinesAux_append_nl : ∀ p rest acc : List Char, '\n' ∉ p →
    readlinesAux (p ++ '\n' :: rest) acc =
      (acc.reverse ++ p ++ ['\n']) :: readlinesAux rest [] := by
  intro p
  induction p with
  | nil =>
    intro rest acc _
    simp [readlinesAux]
  | cons c p ih =>
    intro rest acc hn
    have hc : c ≠ '\n' := fun hh => hn (by simp [hh])
    have hn' : '\n' ∉ p := fun hh => hn (by simp [hh])
    rw [List.cons_append, readlinesAux_cons_ne c _ acc hc, ih rest (c :: acc) hn']
    simp

theorem readlinesAux_no_nl : ∀ p acc : List Char, '\n' ∉ p → (acc ≠ [] ∨ p ≠ []) →
    readlinesAux p acc = [acc.reverse ++ p] := by
  intro p
  induction p with
  | nil =>
    intro acc _ hd
    have hacc : acc ≠ [] := by
      rcases hd with h | h
      · exact h
      · exact absurd rfl h
    simp [readlinesAux, List.isEmpty_iff, hacc]
  | cons c p ih =>
    intro acc hn _
    have hc : c ≠ '\n' := fun hh => hn (by simp [hh])
    have hn' : '\n' ∉ p := fun hh => hn (by simp [hh])
    rw [readlinesAux_cons_ne c _ acc hc, ih (c :: acc) hn' (Or.inl (by simp))]
    simp

theorem univNL_cons_ne (c : Char) (rest : List Char) (h : c ≠ '\r') :
    univNL (c :: rest) = c :: univNL rest := by
  cases rest with
  | nil => simp [univNL, h]
  | cons d rest => simp [univNL, h]

theorem univNL_crlf (rest : List Char) :
    univNL ('\r' :: '\n' :: rest) = '\n' :: univNL rest := by
  simp [univNL]

theorem univNL_append_noCR : ∀ p l : List Char, '\r' ∉ p →
    univNL (p ++ l) = p ++ univNL l := by
  intro p
  induction p with
  | nil => intro l _; rfl
  | cons c p ih =>
    intro l hr
    have hc : c ≠ '\r' := fun hh => hr (by simp [hh])
    have hr' : '\r' ∉ p := fun hh => hr (by simp [hh])
    rw [List.cons_append, univNL_cons_ne c _ hc, ih l hr']
    rfl

theorem univNL_joinCRLF : ∀ P : List (List Char), (∀ p ∈ P, '\r' ∉ p) →
    univNL (joinCRLF P) = joinLF P := by
  intro P
  induction P with
  | nil => intro _; rfl
  | cons p P ih =>
    intro h
    cases P with
    | nil =>
      show univNL p = p
      have h2 := univNL_append_noCR p [] (h p (by simp))
      rw [show univNL ([] : List Char) = [] from rfl, List.append_nil] at h2
      exact h2
    | cons q ps =>
      show univNL (p ++ '\r' :: '\n' :: joinCRLF (q :: ps)) = p ++ '\n' :: joinLF (q :: ps)
      rw [univNL_append_noCR p _ (h p (by simp)), univNL_crlf,
        ih (fun x hx => h x (by simp [hx]))]

theorem readlines_joinLF_strip : ∀ P : List (List Char),
    (∀ p ∈ P, p ≠ [] ∧ pyStrip p = p ∧ '\n' ∉ p) → P ≠ [] →
    (readlinesPy (joinLF P)).map pyStrip = P := by
  intro P
  induction P with
  | nil => intro _ h; exact absurd rfl h
  | cons p P ih =>
    intro h _
    obtain ⟨hp1, hp2, hp3⟩ := h p (by simp)
    cases P with
    | nil =>
      show (readlinesPy p).map pyStrip = [p]
      unfold readlinesPy
      rw [readlinesAux_no_nl p [] hp3 (Or.inr hp1)]
      simp [hp2]
    | cons q ps =>
      show (readlinesPy (p ++ '\n' :: joinLF (q :: ps))).map pyStrip = p :: q :: ps
      unfold readlinesPy
      rw [readlinesAux_append_nl p _ [] hp3]
      rw [List.map_cons]
      have hfirst : pyStrip (List.reverse [] ++ p ++ ['\n']) = p := by
        simp only [List.reverse_nil, List.nil_append]
        exact pyStrip_append_newline hp1 hp2
      rw [hfirst]
      have hrest := ih (fun x hx => h x (by simp [hx])) (by simp)
      unfold readlinesPy at hrest
      rw [hrest]

theorem readPhonesData_joinCRLF (P : List (List Char)) (hP : P ≠ [])
    (h : ∀ p ∈ P, p ≠ [] ∧ pyStrip p = p ∧ '\r' ∉ p ∧ '\n' ∉ p) :
    readPhonesData (joinCRLF P) = joinCRLF P := by
  unfold readPhonesData
  rw [univNL_joinCRLF P (fun p hp => (h p hp).2.2.1)]
  rw [readlines_joinLF_strip P (fun p hp => ⟨(h p hp).1, (h p hp).2.1, (h p hp).2.2.2⟩) hP]

/-- C1 (amended): storing a name `N` of 1–30 non-control characters with a
non-empty list of phone lines `P` — each line non-empty, free of `\r`/`\n`,
and equal to its trimmed form — and then retrieving `N` yields the
`НОРМАЛДЫКС` response carrying exactly the lines `P` joined by `\r\n`, in
their original order, with the store unchanged by the read. -/
theorem store_then_retrieve_roundtrip (root N : List Char) (P : List (List Char)) (fs : FS)
    (hN : 1 ≤ N.length ∧ N.length ≤ 30)
    (hNc : ∀ c ∈ N, ¬(c.toNat < 32 ∨ c.toNat = 127))
    (hP : P ≠ [])
    (hlines : ∀ p ∈ P, p ≠ [] ∧ pyStrip p = p ∧ '\r' ∉ p ∧ '\n' ∉ p) :
    readPhones root N (writePhones root N P fs).2.1 =
      (txt "НОРМАЛДЫКС РКСОК/1.0\r\n" ++ joinCRLF P ++ txt "\r\n\r\n",
       (writePhones root N P fs).2.1,
       [Event.fsRead (phonebookPath root N)]) := by
  have hlok : fsLookup ((phonebookPath root N, joinCRLF P) :: fs) (phonebookPath root N) =
      some (joinCRLF P) := by
    simp [fsLookup]
  unfold writePhones readPhones
  rw [hlok]
  simp only [readPhonesData_joinCRLF P hP hlines]

/-- Witness for the round trip at a concrete name and phone list. -/
theorem store_then_retrieve_roundtrip_witness :
    readPhones (txt "R") (txt "Ivan")
        (writePhones (txt "R") (txt "Ivan") [txt "+7123"] []).2.1 =
      (txt "НОРМАЛДЫКС РКСОК/1.0\r\n" ++ joinCRLF [txt "+7123"] ++ txt "\r\n\r\n",
       (writePhones (txt "R") (txt "Ivan") [txt "+7123"] []).2.1,
       [Event.fsRead (phonebookPath (txt "R") (txt "Ivan"))]) :=
  store_then_retrieve_roundtrip (txt "R") (txt "Ivan") [txt "+7123"] []
    (by decide) (by decide) (by decide) (by decide)

/-- C1 counterexample: `P = ["a", ""]` satisfies the claim's hypotheses as
stated (every line equals its trimmed form), yet the retrieve after the store
answers with payload `a` alone — `'\r\n'.join` followed by `readlines` and
per-line strip loses the trailing empty line. -/
theorem store_retrieve_trailing_empty_line_cex :
    (∀ p ∈ [txt "a", ([] : List Char)], pyStrip p = p ∧ '\r' ∉ p ∧ '\n' ∉ p) ∧
    ([txt "a", ([] : List Char)] ≠ []) ∧
    readPhones (txt "R") (txt "Ivan")
        (writePhones (txt "R") (txt "Ivan") [txt "a", []] []).2.1 ≠
      (txt "НОРМАЛДЫКС РКСОК/1.0\r\n" ++ joinCRLF [txt "a", ([] : List Char)] ++ txt "\r\n\r\n",
       (writePhones (txt "R") (txt "Ivan") [txt "a", []] []).2.1,
       [Event.fsRead (phonebookPath (txt "R") (txt "Ivan"))]) :=
  ⟨by decide, by decide, by decide⟩
